import Mathlib

/-!
Verification development for the `ITMO-PNM-autocontrast` repository.

The repository holds two near-duplicate C++ drivers, `src/autocontrast.cpp`
(single- or three-channel, the newer one) and `src/image.cpp` (three-channel
only).  Both contain the same four-phase core inside `handle_image`:

1. a parallel histogram build over the flat byte buffer,
2. two threshold scans over the 256-bin histogram,
3. construction of a 256-entry remap table,
4. application of the table to every sample in place.

This file is a shallow embedding of that core.  The buffer is a `List (Fin
256)`; the parallel block partition is embedded by the exact index arithmetic
of the source (`thread_block_size = N / THREADS_COUNT`, block `t` covering
`[bs*t, bs*(t+1))`, plus the single-threaded tail `[bs*T, N)`); the scan loops
are embedded as structurally recursive functions with one step per loop
iteration; the float arithmetic of the remap table (`255.0 / (smax - smin)`,
`round`, the comparisons of the scans) is embedded as exact `ℚ` arithmetic.
Where the two source files differ, both versions are embedded and named
`...Auto` / `...Image` (or plain for `autocontrast.cpp`).
-/

set_option maxRecDepth 8000

namespace Autocontrast

/-- One 8-bit sample (`uint8_t`), the element type of the image buffer. -/
abbrev Byte := Fin 256

/-- The numeric values of a sample buffer (used to index the 256 histogram
bins, which the source addresses with plain `int`s). -/
def vals (b : List Byte) : List ℕ := b.map Fin.val

/-- Slice `seg l lo hi` of the buffer `l` covering indices
`[lo, hi)` — the index range scanned by one worker's `for` loop. -/
def seg (l : List ℕ) (lo hi : ℕ) : List ℕ := (l.drop lo).take (hi - lo)

/-- Histogram builder of `src/autocontrast.cpp` lines 94–133: each of the
`T` workers counts its private block `[bs*t, bs*(t+1))` with
`bs = N / T`, the private tables are merged bin-by-bin, and the remaining
tail `[bs*T, N)` is counted once, single-threaded. -/
def freqAuto (l : List ℕ) (T : ℕ) (v : ℕ) : ℕ :=
  (∑ t ∈ Finset.range T,
      (seg l (l.length / T * t) (l.length / T * (t + 1))).count v) +
    (seg l (l.length / T * T) l.length).count v

/-- Histogram builder of `src/image.cpp` lines 104–140.  The parallel
blocks are identical to `freqAuto`, but the tail loop (lines 136–140) keeps
the leftover inner `for (color = 0; color < 3; ...)` loop whose body ignores
`color`, so every tail sample is counted three times. -/
def freqImage (l : List ℕ) (T : ℕ) (v : ℕ) : ℕ :=
  (∑ t ∈ Finset.range T,
      (seg l (l.length / T * t) (l.length / T * (t + 1))).count v) +
    3 * (seg l (l.length / T * T) l.length).count v

/-- The `source_min` scan of `src/autocontrast.cpp` lines 150–157, one
recursion step per loop iteration.  The loop runs `source_min` from 0 while
`source_min < 255` (so `fuel` starts at 255), accumulates `pref += freq[v]`,
and breaks with the current `v` as soon as the running sum exceeds
`needed_borders`; if it never breaks, `source_min` has been incremented to
255. -/
def scanMinGo (f : ℕ → ℕ) (needed : ℚ) : ℕ → ℕ → ℕ → ℕ
  | 0, _, _ => 255
  | fuel + 1, v, pref =>
    if needed < ((pref + f v : ℕ) : ℚ) then v
    else scanMinGo f needed fuel (v + 1) (pref + f v)

/-- Value `source_min` produced by `src/autocontrast.cpp` for histogram `f` and
threshold `needed = coeff * size`. -/
def scanMin (f : ℕ → ℕ) (needed : ℚ) : ℕ := scanMinGo f needed 255 0 0

/-- The `source_max` scan of `src/autocontrast.cpp` lines 162–169: the loop
runs `source_max` from 255 while `source_max > 0`, so the loop variable
itself is the fuel; bin 0 is never read and a scan that never breaks ends
with `source_max = 0`. -/
def scanMaxGo (f : ℕ → ℕ) (needed : ℚ) : ℕ → ℕ → ℕ
  | 0, _ => 0
  | v + 1, pref =>
    if needed < ((pref + f (v + 1) : ℕ) : ℚ) then v + 1
    else scanMaxGo f needed v (pref + f (v + 1))

/-- Value `source_max` produced by `src/autocontrast.cpp`. -/
def scanMax (f : ℕ → ℕ) (needed : ℚ) : ℕ := scanMaxGo f needed 255 0

/-- The `source_min` scan of `src/image.cpp` lines 157–164: identical to
`scanMinGo` except that the loop condition is `source_min < 256`, so bin 255
is also accumulated and a scan that never breaks ends with
`source_min = 256`. -/
def scanMinGoImage (f : ℕ → ℕ) (needed : ℚ) : ℕ → ℕ → ℕ → ℕ
  | 0, _, _ => 256
  | fuel + 1, v, pref =>
    if needed < ((pref + f v : ℕ) : ℚ) then v
    else scanMinGoImage f needed fuel (v + 1) (pref + f v)

/-- Value `source_min` produced by `src/image.cpp`. -/
def scanMinImage (f : ℕ → ℕ) (needed : ℚ) : ℕ := scanMinGoImage f needed 256 0 0

/-- The `source_max` scan of `src/image.cpp` lines 169–176: the loop
condition is `source_max >= 0`, so bin 0 is also read and a scan that never
breaks decrements `source_max` (an `int`) to `-1`.  The fuel is
`source_max + 1`. -/
def scanMaxGoImage (f : ℕ → ℕ) (needed : ℚ) : ℕ → ℕ → ℤ
  | 0, _ => -1
  | fuel + 1, pref =>
    if needed < ((pref + f fuel : ℕ) : ℚ) then (fuel : ℤ)
    else scanMaxGoImage f needed fuel (pref + f fuel)

/-- Value `source_max` produced by `src/image.cpp` (an `int`, possibly `-1`). -/
def scanMaxImage (f : ℕ → ℕ) (needed : ℚ) : ℤ := scanMaxGoImage f needed 256 0

/-- The threshold pair computed by `src/autocontrast.cpp` lines 140–171
from the buffer values, the worker count and `needed = coeff * size`. -/
def borders (l : List ℕ) (T : ℕ) (needed : ℚ) : ℕ × ℕ :=
  (scanMin (freqAuto l T) needed, scanMax (freqAuto l T) needed)

/-- Entry `i` of the remap table of `src/autocontrast.cpp` lines 181–186,
before the `uint8_t` store:
`min(255, (int) round(255.0 / (source_max - source_min) * max(0, i - source_min)))`,
with the float arithmetic embedded as exact `ℚ` arithmetic.  Note the `ℚ`
convention `x / 0 = 0`: in C++ the zero denominator of the degenerate case
`source_max == source_min` instead produces `inf`/`NaN` (see the theorem
for claim C1). -/
def mappingVal (smin smax i : ℕ) : ℤ :=
  min 255 (round (((255 : ℚ) / ((smax : ℚ) - (smin : ℚ))) *
    ((max 0 ((i : ℤ) - (smin : ℤ)) : ℤ) : ℚ)))

/-- The `uint8_t` store of a table entry: C++ integer-to-`uint8_t`
conversion reduces modulo 256. -/
def toByte (z : ℤ) : Byte := ⟨(z % 256).toNat, by omega⟩

/-- The stored remap table of `src/autocontrast.cpp` (`mapping[256]`). -/
def mapByte (smin smax : ℕ) (b : Byte) : Byte := toByte (mappingVal smin smax (b : ℕ))

/-- Entry `i` of the remap table of `src/image.cpp` lines 188–193:
`min((float) 255.0, max((float) 0.0, i - s_min) * tmp)` stored into a
`uint8_t`, i.e. truncated, with no `round`.  The float-to-`uint8_t`
truncation is embedded as `Int.floor` (the value is non-negative whenever
`smin < smax`; a negative float-to-unsigned conversion is undefined in C++).
Caveat: this is the exact-arithmetic idealization of the float32
expression; in the program's binary32 arithmetic the rounded product at
`i = source_max` can fall just below 255, and the truncating store then
yields 254 instead of this definition's 255 — see `tmpF32`, `prodF32` and
the theorem for claim C7, which evaluates the real float32 computation at
such a window. -/
def mappingValImage (smin smax i : ℕ) : ℤ :=
  ⌊min (255 : ℚ) ((max 0 ((i : ℚ) - (smin : ℚ))) *
    ((255 : ℚ) / ((smax : ℚ) - (smin : ℚ))))⌋

/-- The stored remap table of `src/image.cpp`. -/
def mapByteImage (smin smax : ℕ) (b : Byte) : Byte :=
  toByte (mappingValImage smin smax (b : ℕ))

/-- Modelled float32 value of `tmp = 255.0 / (source_max - source_min)`
computed by `src/image.cpp` line 188 for the window `[0, 7]`: the multiple
of `2 ^ (-18)` with 24-bit significand (`9549531 ∈ [2^23, 2^24)`) lying
strictly within half an ulp of the exact `255 / 7`, hence the unique
round-to-nearest binary32 result (the strict half-ulp bound is proved in
the theorem for claim C7). -/
def tmpF32 : ℚ := 9549531 / 262144

/-- Modelled float32 value of the product
`max((float) 0.0, i - s_min) * tmp` of `src/image.cpp` line 192 at
`i = source_max = 7` for the window `[0, 7]`: the multiple of `2 ^ (-16)`
(significand `16711679 ∈ [2^23, 2^24)`) strictly within half an ulp of the
exact `7 * tmpF32`, hence the unique round-to-nearest binary32 result.  It
equals `254.999988...`, so the truncating `uint8_t` store makes the real
`mapping[source_max]` equal to 254, not 255. -/
def prodF32 : ℚ := 16711679 / 65536

/-- Parallel applier of `src/autocontrast.cpp` lines 190–193:
`image[i] = mapping[image[i]]` for every index `i` in `[0, N)`. -/
def applyMap (table : Byte → Byte) (b : List Byte) : List Byte := b.map table

/-- Applier of `src/image.cpp` lines 197–200: the loop bound is
`pixel_index < size` — the pixel count, not the byte count `3 * size` — so
only the first `size` entries of the flat buffer are overwritten. -/
def applyMapImage (table : Byte → Byte) (b : List Byte) (size : ℕ) : List Byte :=
  (b.take size).map table ++ b.drop size

/-- The whole core pass of `src/autocontrast.cpp` lines 93–193 on one
buffer: histogram with `T` workers, threshold scans with
`needed = coeff * size`, table build, table application. -/
def pass (b : List Byte) (coeff : ℚ) (size T : ℕ) : List Byte :=
  applyMap
    (mapByte (scanMin (freqAuto (vals b) T) (coeff * size))
      (scanMax (freqAuto (vals b) T) (coeff * size))) b

/-- Outcome of parsing one numeric command-line argument through
`istringstream` in `main` of `src/autocontrast.cpp`: the extraction fails,
or succeeds with trailing characters left, or consumes the whole token. -/
inductive NumParse
  | ok
  | invalid
  | trailing
  deriving DecidableEq

/-- Exit status and diagnostic behaviour of `main` in
`src/autocontrast.cpp` lines 246–292 together with the early-return error
paths of `handle_image` (lines 35–53).  The I/O outcomes are abstracted as
oracles: `inputOpens` (does `fopen` succeed), `headerOk` (does `fscanf`
return 5), `magicOk` (is the magic token `P5` or `P6`).  The result is
`(exit status, was a diagnostic message printed)`.  With `argc ≤ 1` the
program runs its built-in debug batch and `main` returns 0. -/
def mainRun (argc : ℕ) (p1 p4 : NumParse) (inputOpens headerOk magicOk : Bool) :
    ℕ × Bool :=
  if 1 < argc then
    if argc < 5 then (1, true)
    else
      match p1 with
      | .invalid => (1, true)
      | .trailing => (1, true)
      | .ok =>
        match p4 with
        | .invalid => (1, true)
        | .trailing => (1, true)
        | .ok =>
          if inputOpens = false then (0, true)
          else if headerOk = false then (0, true)
          else if magicOk = false then (0, true)
          else (0, false)
  else (0, false)

/-! ### Segment and histogram lemmas -/

lemma take_add_split {α : Type*} : ∀ (m n : ℕ) (l : List α),
    l.take (m + n) = l.take m ++ (l.drop m).take n := by
  intro m
  induction m with
  | zero => simp
  | succ m ih =>
    intro n l
    cases l with
    | nil => simp
    | cons a t => simp [Nat.succ_add, ih n t]

lemma seg_split (l : List ℕ) {lo mid hi : ℕ} (h1 : lo ≤ mid) (h2 : mid ≤ hi) :
    seg l lo hi = seg l lo mid ++ seg l mid hi := by
  unfold seg
  have hd : l.drop mid = (l.drop lo).drop (mid - lo) := by
    rw [List.drop_drop]
    congr 1
    omega
  rw [hd, ← take_add_split]
  congr 1
  omega

lemma seg_count_split (l : List ℕ) (v : ℕ) {lo mid hi : ℕ}
    (h1 : lo ≤ mid) (h2 : mid ≤ hi) :
    (seg l lo hi).count v = (seg l lo mid).count v + (seg l mid hi).count v := by
  rw [seg_split l h1 h2, List.count_append]

lemma blocks_count (l : List ℕ) (v bs : ℕ) :
    ∀ T, (∑ t ∈ Finset.range T, (seg l (bs * t) (bs * (t + 1))).count v) =
      (seg l 0 (bs * T)).count v := by
  intro T
  induction T with
  | zero => simp [seg]
  | succ T ih =>
    rw [Finset.sum_range_succ, ih,
      ← seg_count_split l v (Nat.zero_le _) (Nat.mul_le_mul_left bs (Nat.le_succ T))]

lemma seg_zero_length (l : List ℕ) : seg l 0 l.length = l := by
  simp [seg]

/-- The histogram of `autocontrast.cpp` counts every buffer index exactly
once: its bin for `v` holds the number of occurrences of `v`. -/
lemma freqAuto_eq_count (l : List ℕ) (T v : ℕ) : freqAuto l T v = l.count v := by
  unfold freqAuto
  rw [blocks_count l v (l.length / T) T,
    ← seg_count_split l v (Nat.zero_le _) (Nat.div_mul_le_self l.length T),
    seg_zero_length]

lemma freqAuto_fun (l : List ℕ) (T : ℕ) : freqAuto l T = fun v => l.count v :=
  funext fun v => freqAuto_eq_count l T v

/-- The histogram of `image.cpp` overcounts: each tail sample is counted
three times, so bin `v` holds `count v` plus twice the tail occurrences. -/
lemma freqImage_eq_count (l : List ℕ) (T v : ℕ) :
    freqImage l T v =
      l.count v + 2 * (seg l (l.length / T * T) l.length).count v := by
  have hs := seg_count_split l v (Nat.zero_le (l.length / T * T))
    (Nat.div_mul_le_self l.length T)
  rw [seg_zero_length] at hs
  unfold freqImage
  rw [blocks_count l v (l.length / T) T]
  omega

lemma seg_count_le (l : List ℕ) (lo hi v : ℕ) : (seg l lo hi).count v ≤ l.count v := by
  unfold seg
  exact List.Sublist.count_le
    (List.Sublist.trans (List.take_sublist _ _) (List.drop_sublist _ _)) v

/-- A bin of the `image.cpp` histogram is positive exactly when the value
occurs in the buffer: the tail overcount inflates counts but never
invents or removes a value. -/
lemma freqImage_pos_iff (l : List ℕ) (T v : ℕ) :
    0 < freqImage l T v ↔ 0 < l.count v := by
  rw [freqImage_eq_count]
  have := seg_count_le l (l.length / T * T) l.length v
  omega

lemma count_sum_256 : ∀ (l : List ℕ), (∀ x ∈ l, x < 256) →
    (∑ v ∈ Finset.range 256, l.count v) = l.length := by
  intro l
  induction l with
  | nil => simp
  | cons a t ih =>
    intro h
    have ha : a ∈ Finset.range 256 := Finset.mem_range.mpr (h a (by simp))
    have : ∀ v, (a :: t).count v = t.count v + if a = v then 1 else 0 := by
      intro v
      simp [List.count_cons]
    simp only [this]
    rw [Finset.sum_add_distrib, ih (fun x hx => h x (by simp [hx])),
      Finset.sum_ite_eq (Finset.range 256) a fun _ => 1]
    simp [ha]

lemma vals_lt (b : List Byte) : ∀ x ∈ vals b, x < 256 := by
  intro x hx
  obtain ⟨y, -, rfl⟩ := List.mem_map.mp hx
  exact y.isLt

lemma vals_length (b : List Byte) : (vals b).length = b.length := by
  simp [vals]

/-! ### Scan-loop lemmas -/

lemma scanMinGo_le (f : ℕ → ℕ) (needed : ℚ) :
    ∀ fuel v pref, fuel + v = 255 → scanMinGo f needed fuel v pref ≤ 255 := by
  intro fuel
  induction fuel with
  | zero => intro v pref h; simp [scanMinGo]
  | succ fuel ih =>
    intro v pref h
    simp only [scanMinGo]
    split
    · omega
    · exact ih (v + 1) (pref + f v) (by omega)

lemma scanMin_le (f : ℕ → ℕ) (needed : ℚ) : scanMin f needed ≤ 255 :=
  scanMinGo_le f needed 255 0 0 rfl

lemma scanMaxGo_le (f : ℕ → ℕ) (needed : ℚ) :
    ∀ v pref, scanMaxGo f needed v pref ≤ v := by
  intro v
  induction v with
  | zero => intro pref; simp [scanMaxGo]
  | succ v ih =>
    intro pref
    simp only [scanMaxGo]
    split
    · exact le_refl _
    · exact le_trans (ih (pref + f (v + 1))) (Nat.le_succ v)

lemma scanMax_le (f : ℕ → ℕ) (needed : ℚ) : scanMax f needed ≤ 255 :=
  scanMaxGo_le f needed 255 0

lemma scanMinGoImage_le (f : ℕ → ℕ) (needed : ℚ) :
    ∀ fuel v pref, fuel + v = 256 → scanMinGoImage f needed fuel v pref ≤ 256 := by
  intro fuel
  induction fuel with
  | zero => intro v pref h; simp [scanMinGoImage]
  | succ fuel ih =>
    intro v pref h
    simp only [scanMinGoImage]
    split
    · omega
    · exact ih (v + 1) (pref + f v) (by omega)

lemma scanMaxGoImage_bounds (f : ℕ → ℕ) (needed : ℚ) :
    ∀ fuel pref, -1 ≤ scanMaxGoImage f needed fuel pref ∧
      scanMaxGoImage f needed fuel pref ≤ (fuel : ℤ) - 1 := by
  intro fuel
  induction fuel with
  | zero => intro pref; simp [scanMaxGoImage]
  | succ fuel ih =>
    intro pref
    simp only [scanMaxGoImage]
    split
    · constructor
      · exact le_trans (by omega) (Int.natCast_nonneg fuel)
      · push_cast; omega
    · obtain ⟨h1, h2⟩ := ih (pref + f fuel)
      constructor
      · exact h1
      · push_cast at h2 ⊢; omega

lemma scanMinGo_congr (f g : ℕ → ℕ) (needed : ℚ)
    (hfg : ∀ w, w ≤ 255 → f w = g w) :
    ∀ fuel v pref, fuel + v = 255 →
      scanMinGo f needed fuel v pref = scanMinGo g needed fuel v pref := by
  intro fuel
  induction fuel with
  | zero => intro v pref h; simp [scanMinGo]
  | succ fuel ih =>
    intro v pref h
    simp only [scanMinGo]
    rw [hfg v (by omega)]
    split
    · rfl
    · exact ih (v + 1) (pref + g v) (by omega)

lemma scanMaxGo_congr (f g : ℕ → ℕ) (needed : ℚ)
    (hfg : ∀ w, w ≤ 255 → f w = g w) :
    ∀ v pref, v ≤ 255 → scanMaxGo f needed v pref = scanMaxGo g needed v pref := by
  intro v
  induction v with
  | zero => intro pref h; simp [scanMaxGo]
  | succ v ih =>
    intro pref h
    simp only [scanMaxGo]
    rw [hfg (v + 1) h]
    split
    · rfl
    · exact ih (pref + g (v + 1)) (by omega)

lemma scanMinGoImage_congr (f g : ℕ → ℕ) (needed : ℚ)
    (hfg : ∀ w, w ≤ 255 → f w = g w) :
    ∀ fuel v pref, fuel + v = 256 →
      scanMinGoImage f needed fuel v pref = scanMinGoImage g needed fuel v pref := by
  intro fuel
  induction fuel with
  | zero => intro v pref h; simp [scanMinGoImage]
  | succ fuel ih =>
    intro v pref h
    simp only [scanMinGoImage]
    rw [hfg v (by omega)]
    split
    · rfl
    · exact ih (v + 1) (pref + g v) (by omega)

lemma scanMaxGoImage_congr (f g : ℕ → ℕ) (needed : ℚ)
    (hfg : ∀ w, w ≤ 255 → f w = g w) :
    ∀ fuel pref, fuel ≤ 256 →
      scanMaxGoImage f needed fuel pref = scanMaxGoImage g needed fuel pref := by
  intro fuel
  induction fuel with
  | zero => intro pref h; simp [scanMaxGoImage]
  | succ fuel ih =>
    intro pref h
    simp only [scanMaxGoImage]
    rw [hfg fuel (by omega)]
    split
    · rfl
    · exact ih (pref + g fuel) (by omega)

lemma scanMinGo_clamp (f : ℕ → ℕ) (needed : ℚ) :
    ∀ fuel v pref, fuel + v = 255 →
      (((pref + ∑ w ∈ Finset.Ico v 256, f w : ℕ) : ℚ) ≤ needed) →
      scanMinGo f needed fuel v pref = 255 := by
  intro fuel
  induction fuel with
  | zero => intro v pref h hle; simp [scanMinGo]
  | succ fuel ih =>
    intro v pref h hle
    have hv : v < 256 := by omega
    have hsum : (∑ w ∈ Finset.Ico v 256, f w) =
        f v + ∑ w ∈ Finset.Ico (v + 1) 256, f w :=
      Finset.sum_eq_sum_Ico_succ_bot hv f
    have hstep : ((pref + f v : ℕ) : ℚ) ≤ needed := by
      refine le_trans ?_ hle
      have : pref + f v ≤ pref + ∑ w ∈ Finset.Ico v 256, f w := by omega
      exact_mod_cast this
    simp only [scanMinGo]
    rw [if_neg (not_lt.mpr hstep)]
    refine ih (v + 1) (pref + f v) (by omega) ?_
    have heq : pref + f v + ∑ w ∈ Finset.Ico (v + 1) 256, f w
        = pref + ∑ w ∈ Finset.Ico v 256, f w := by omega
    exact le_trans (le_of_eq (by exact_mod_cast heq)) hle

lemma scanMin_clamp (f : ℕ → ℕ) (needed : ℚ)
    (hle : ((∑ w ∈ Finset.range 256, f w : ℕ) : ℚ) ≤ needed) :
    scanMin f needed = 255 := by
  rw [Finset.range_eq_Ico] at hle
  unfold scanMin
  exact scanMinGo_clamp f needed 255 0 0 rfl (by simpa using hle)

lemma scanMaxGo_clamp (f : ℕ → ℕ) (needed : ℚ) :
    ∀ v pref, (((pref + ∑ w ∈ Finset.range (v + 1), f w : ℕ) : ℚ) ≤ needed) →
      scanMaxGo f needed v pref = 0 := by
  intro v
  induction v with
  | zero => intro pref hle; simp [scanMaxGo]
  | succ v ih =>
    intro pref hle
    have hsum : (∑ w ∈ Finset.range (v + 2), f w) =
        (∑ w ∈ Finset.range (v + 1), f w) + f (v + 1) :=
      Finset.sum_range_succ f (v + 1)
    have hstep : ((pref + f (v + 1) : ℕ) : ℚ) ≤ needed := by
      refine le_trans ?_ hle
      have : pref + f (v + 1) ≤ pref + ∑ w ∈ Finset.range (v + 2), f w := by omega
      exact_mod_cast this
    simp only [scanMaxGo]
    rw [if_neg (not_lt.mpr hstep)]
    refine ih (pref + f (v + 1)) ?_
    have heq : pref + f (v + 1) + ∑ w ∈ Finset.range (v + 1), f w
        = pref + ∑ w ∈ Finset.range (v + 1 + 1), f w := by
      rw [Finset.sum_range_succ f (v + 1)]
      omega
    exact le_trans (le_of_eq (by exact_mod_cast heq)) hle

lemma scanMax_clamp (f : ℕ → ℕ) (needed : ℚ)
    (hle : ((∑ w ∈ Finset.range 256, f w : ℕ) : ℚ) ≤ needed) :
    scanMax f needed = 0 := by
  unfold scanMax
  exact scanMaxGo_clamp f needed 255 0 (by simpa using hle)

lemma scanMinGoImage_clamp (f : ℕ → ℕ) (needed : ℚ) :
    ∀ fuel v pref, fuel + v = 256 →
      (((pref + ∑ w ∈ Finset.Ico v 256, f w : ℕ) : ℚ) ≤ needed) →
      scanMinGoImage f needed fuel v pref = 256 := by
  intro fuel
  induction fuel with
  | zero => intro v pref h hle; simp [scanMinGoImage]
  | succ fuel ih =>
    intro v pref h hle
    have hv : v < 256 := by omega
    have hsum : (∑ w ∈ Finset.Ico v 256, f w) =
        f v + ∑ w ∈ Finset.Ico (v + 1) 256, f w :=
      Finset.sum_eq_sum_Ico_succ_bot hv f
    have hstep : ((pref + f v : ℕ) : ℚ) ≤ needed := by
      refine le_trans ?_ hle
      have : pref + f v ≤ pref + ∑ w ∈ Finset.Ico v 256, f w := by omega
      exact_mod_cast this
    simp only [scanMinGoImage]
    rw [if_neg (not_lt.mpr hstep)]
    refine ih (v + 1) (pref + f v) (by omega) ?_
    have heq : pref + f v + ∑ w ∈ Finset.Ico (v + 1) 256, f w
        = pref + ∑ w ∈ Finset.Ico v 256, f w := by omega
    exact le_trans (le_of_eq (by exact_mod_cast heq)) hle

lemma scanMaxGoImage_clamp (f : ℕ → ℕ) (needed : ℚ) :
    ∀ fuel pref, (((pref + ∑ w ∈ Finset.range fuel, f w : ℕ) : ℚ) ≤ needed) →
      scanMaxGoImage f needed fuel pref = -1 := by
  intro fuel
  induction fuel with
  | zero => intro pref hle; simp [scanMaxGoImage]
  | succ fuel ih =>
    intro pref hle
    have hsum : (∑ w ∈ Finset.range (fuel + 1), f w) =
        (∑ w ∈ Finset.range fuel, f w) + f fuel :=
      Finset.sum_range_succ f fuel
    have hstep : ((pref + f fuel : ℕ) : ℚ) ≤ needed := by
      refine le_trans ?_ hle
      have : pref + f fuel ≤ pref + ∑ w ∈ Finset.range (fuel + 1), f w := by omega
      exact_mod_cast this
    simp only [scanMaxGoImage]
    rw [if_neg (not_lt.mpr hstep)]
    refine ih (pref + f fuel) ?_
    have heq : pref + f fuel + ∑ w ∈ Finset.range fuel, f w
        = pref + ∑ w ∈ Finset.range (fuel + 1), f w := by omega
    exact le_trans (le_of_eq (by exact_mod_cast heq)) hle

/-- With `needed = 0` (clip coefficient 0) the upward scan stops at the
first non-empty bin it can reach; together with the clamping at 255 this
says the result is the least value present, or 255 when nothing below 255
is present. -/
lemma scanMinGo_first (f : ℕ → ℕ) :
    ∀ fuel v, fuel + v = 255 → (∀ w, w < v → f w = 0) →
      (∃ u, v ≤ u ∧ u ≤ 255 ∧ 0 < f u) →
      0 < f (scanMinGo f 0 fuel v 0) ∧
        ∀ w, w < scanMinGo f 0 fuel v 0 → f w = 0 := by
  intro fuel
  induction fuel with
  | zero =>
    intro v h hbelow hex
    obtain ⟨u, hvu, hu255, hupos⟩ := hex
    have hv : v = 255 := by omega
    have hu : u = 255 := by omega
    subst hv
    subst hu
    exact ⟨by simpa [scanMinGo] using hupos, by simpa [scanMinGo] using hbelow⟩
  | succ fuel ih =>
    intro v h hbelow hex
    by_cases hfv : 0 < f v
    · have hcond : (0 : ℚ) < ((0 + f v : ℕ) : ℚ) := by
        rw [Nat.zero_add]
        exact_mod_cast hfv
      simp only [scanMinGo, if_pos hcond]
      exact ⟨hfv, hbelow⟩
    · have hfv0 : f v = 0 := by omega
      have hcond : ¬ (0 : ℚ) < ((0 + f v : ℕ) : ℚ) := by
        rw [Nat.zero_add, hfv0]
        simp
      simp only [scanMinGo, if_neg hcond]
      rw [hfv0]
      refine ih (v + 1) (by omega) ?_ ?_
      · intro w hw
        rcases Nat.lt_succ_iff_lt_or_eq.mp hw with h1 | h1
        · exact hbelow w h1
        · simpa [h1]
      · obtain ⟨u, hvu, hu255, hupos⟩ := hex
        refine ⟨u, ?_, hu255, hupos⟩
        rcases Nat.eq_or_lt_of_le hvu with h1 | h1
        · exact absurd (h1 ▸ hupos) (by simp [hfv0])
        · omega

lemma scanMin_first (f : ℕ → ℕ) (hex : ∃ u, u ≤ 255 ∧ 0 < f u) :
    0 < f (scanMin f 0) ∧ ∀ w, w < scanMin f 0 → f w = 0 := by
  refine scanMinGo_first f 255 0 rfl (by omega) ?_
  obtain ⟨u, hu255, hupos⟩ := hex
  exact ⟨u, Nat.zero_le u, hu255, hupos⟩

/-- With `needed = 0` the downward scan stops at the greatest non-empty
bin at or below its starting point. -/
lemma scanMaxGo_last (f : ℕ → ℕ) :
    ∀ v, (∀ w, v < w → w ≤ 255 → f w = 0) → (∃ u, u ≤ v ∧ 0 < f u) →
      0 < f (scanMaxGo f 0 v 0) ∧
        (∀ w, scanMaxGo f 0 v 0 < w → w ≤ 255 → f w = 0) ∧
        scanMaxGo f 0 v 0 ≤ v := by
  intro v
  induction v with
  | zero =>
    intro habove hex
    obtain ⟨u, hu0, hupos⟩ := hex
    have hu : u = 0 := by omega
    subst hu
    exact ⟨by simpa [scanMaxGo] using hupos,
      by simpa [scanMaxGo] using habove, by simp [scanMaxGo]⟩
  | succ v ih =>
    intro habove hex
    by_cases hfv : 0 < f (v + 1)
    · have hcond : (0 : ℚ) < ((0 + f (v + 1) : ℕ) : ℚ) := by
        rw [Nat.zero_add]
        exact_mod_cast hfv
      simp only [scanMaxGo, if_pos hcond]
      exact ⟨hfv, habove, le_refl _⟩
    · have hfv0 : f (v + 1) = 0 := by omega
      have hcond : ¬ (0 : ℚ) < ((0 + f (v + 1) : ℕ) : ℚ) := by
        rw [Nat.zero_add, hfv0]
        simp
      simp only [scanMaxGo, if_neg hcond]
      rw [hfv0]
      have hres := ih ?_ ?_
      · exact ⟨hres.1, hres.2.1, le_trans hres.2.2 (Nat.le_succ v)⟩
      · intro w hw h255
        rcases Nat.lt_or_ge w (v + 1) with h1 | h1
        · omega
        · rcases Nat.eq_or_lt_of_le h1 with h2 | h2
          · simpa [← h2]
          · exact habove w h2 h255
      · obtain ⟨u, huv, hupos⟩ := hex
        refine ⟨u, ?_, hupos⟩
        rcases Nat.eq_or_lt_of_le huv with h1 | h1
        · exact absurd (h1 ▸ hupos) (by simp [hfv0])
        · omega

lemma scanMax_last (f : ℕ → ℕ) (hex : ∃ u, u ≤ 255 ∧ 0 < f u) :
    0 < f (scanMax f 0) ∧
      (∀ w, scanMax f 0 < w → w ≤ 255 → f w = 0) ∧ scanMax f 0 ≤ 255 := by
  refine scanMaxGo_last f 255 (by omega) ?_
  obtain ⟨u, hu255, hupos⟩ := hex
  exact ⟨u, hu255, hupos⟩

/-- With `needed = 0` the upward scan of `image.cpp` also stops at the
first non-empty bin it can reach (it differs from `autocontrast.cpp`'s
only in its terminal value, irrelevant when some bin is non-empty). -/
lemma scanMinGoImage_first (f : ℕ → ℕ) :
    ∀ fuel v, fuel + v = 256 → (∀ w, w < v → f w = 0) →
      (∃ u, v ≤ u ∧ u ≤ 255 ∧ 0 < f u) →
      0 < f (scanMinGoImage f 0 fuel v 0) ∧
        ∀ w, w < scanMinGoImage f 0 fuel v 0 → f w = 0 := by
  intro fuel
  induction fuel with
  | zero =>
    intro v h hbelow hex
    obtain ⟨u, hvu, hu255, -⟩ := hex
    omega
  | succ fuel ih =>
    intro v h hbelow hex
    by_cases hfv : 0 < f v
    · have hcond : (0 : ℚ) < ((0 + f v : ℕ) : ℚ) := by
        rw [Nat.zero_add]
        exact_mod_cast hfv
      simp only [scanMinGoImage, if_pos hcond]
      exact ⟨hfv, hbelow⟩
    · have hfv0 : f v = 0 := by omega
      have hcond : ¬ (0 : ℚ) < ((0 + f v : ℕ) : ℚ) := by
        rw [Nat.zero_add, hfv0]
        simp
      simp only [scanMinGoImage, if_neg hcond]
      rw [hfv0]
      refine ih (v + 1) (by omega) ?_ ?_
      · intro w hw
        rcases Nat.lt_succ_iff_lt_or_eq.mp hw with h1 | h1
        · exact hbelow w h1
        · simpa [h1]
      · obtain ⟨u, hvu, hu255, hupos⟩ := hex
        refine ⟨u, ?_, hu255, hupos⟩
        rcases Nat.eq_or_lt_of_le hvu with h1 | h1
        · exact absurd (h1 ▸ hupos) (by simp [hfv0])
        · omega

lemma scanMinImage_first (f : ℕ → ℕ) (hex : ∃ u, u ≤ 255 ∧ 0 < f u) :
    0 < f (scanMinImage f 0) ∧ ∀ w, w < scanMinImage f 0 → f w = 0 := by
  refine scanMinGoImage_first f 256 0 rfl (by omega) ?_
  obtain ⟨u, hu255, hupos⟩ := hex
  exact ⟨u, Nat.zero_le u, hu255, hupos⟩

/-- With `needed = 0` the downward scan of `image.cpp` stops at the
greatest non-empty bin, returning it as a non-negative `int`. -/
lemma scanMaxGoImage_last (f : ℕ → ℕ) :
    ∀ fuel, fuel ≤ 256 → (∀ w, fuel ≤ w → w ≤ 255 → f w = 0) →
      (∃ u, u < fuel ∧ 0 < f u) →
      ∃ r : ℕ, scanMaxGoImage f 0 fuel 0 = (r : ℤ) ∧ 0 < f r ∧
        ∀ w, r < w → w ≤ 255 → f w = 0 := by
  intro fuel
  induction fuel with
  | zero =>
    intro _ _ hex
    obtain ⟨u, hu, -⟩ := hex
    omega
  | succ fuel ih =>
    intro h256 habove hex
    by_cases hfv : 0 < f fuel
    · have hcond : (0 : ℚ) < ((0 + f fuel : ℕ) : ℚ) := by
        rw [Nat.zero_add]
        exact_mod_cast hfv
      simp only [scanMaxGoImage, if_pos hcond]
      exact ⟨fuel, rfl, hfv, fun w hw h255 => habove w (by omega) h255⟩
    · have hfv0 : f fuel = 0 := by omega
      have hcond : ¬ (0 : ℚ) < ((0 + f fuel : ℕ) : ℚ) := by
        rw [Nat.zero_add, hfv0]
        simp
      simp only [scanMaxGoImage, if_neg hcond]
      rw [hfv0]
      refine ih (by omega) ?_ ?_
      · intro w hw h255
        rcases Nat.eq_or_lt_of_le hw with h1 | h1
        · simpa [← h1]
        · exact habove w (by omega) h255
      · obtain ⟨u, hu, hupos⟩ := hex
        refine ⟨u, ?_, hupos⟩
        rcases Nat.lt_succ_iff_lt_or_eq.mp hu with h1 | h1
        · exact h1
        · exact absurd (h1 ▸ hupos) (by simp [hfv0])

lemma scanMaxImage_last (f : ℕ → ℕ) (hex : ∃ u, u ≤ 255 ∧ 0 < f u) :
    ∃ r : ℕ, scanMaxImage f 0 = (r : ℤ) ∧ 0 < f r ∧
      ∀ w, r < w → w ≤ 255 → f w = 0 := by
  refine scanMaxGoImage_last f 256 (by omega) (fun w hw h255 => by omega) ?_
  obtain ⟨u, hu255, hupos⟩ := hex
  exact ⟨u, by omega, hupos⟩

/-! ### Remap-table lemmas -/

lemma floor_255 : ⌊(255 : ℚ)⌋ = 255 := by norm_num

lemma toByte_val (z : ℤ) : ((toByte z : Byte) : ℕ) = (z % 256).toNat := rfl

lemma round_nat_div (a : ℤ) (d : ℕ) (hd : 0 < d) :
    round ((a : ℚ) / (d : ℚ)) = (2 * a + d) / ((2 * d : ℕ) : ℤ) := by
  have hd0 : ((d : ℕ) : ℚ) ≠ 0 := by
    exact_mod_cast Nat.pos_iff_ne_zero.mp hd
  have hx : (a : ℚ) / d + 1 / 2 = ((2 * a + d : ℤ) : ℚ) / ((2 * d : ℕ) : ℚ) := by
    push_cast
    field_simp
    ring
  rw [round_eq, hx, Rat.floor_intCast_div_natCast]

lemma mappingVal_int (smin smax i : ℕ) (h : smin < smax) :
    mappingVal smin smax i =
      min 255 ((2 * (255 * max 0 ((i : ℤ) - smin)) + (smax - smin : ℕ)) /
        ((2 * (smax - smin) : ℕ) : ℤ)) := by
  have hd : 0 < smax - smin := by omega
  have hcast : (smax : ℚ) - (smin : ℚ) = ((smax - smin : ℕ) : ℚ) := by
    rw [Nat.cast_sub h.le]
  unfold mappingVal
  rw [hcast]
  have harg : ((255 : ℚ) / ((smax - smin : ℕ) : ℚ)) *
      ((max 0 ((i : ℤ) - smin) : ℤ) : ℚ) =
      ((255 * max 0 ((i : ℤ) - smin) : ℤ) : ℚ) / ((smax - smin : ℕ) : ℚ) := by
    push_cast
    ring
  rw [harg, round_nat_div _ _ hd]

lemma mappingVal_of_le (smin smax i : ℕ) (h : i ≤ smin) :
    mappingVal smin smax i = 0 := by
  unfold mappingVal
  have hk : max 0 ((i : ℤ) - smin) = 0 :=
    max_eq_left (sub_nonpos.mpr (by exact_mod_cast h))
  rw [hk]
  simp only [Int.cast_zero, mul_zero, round_zero]
  omega

lemma mappingVal_nonneg (smin smax i : ℕ) (h : smin ≤ smax) :
    0 ≤ mappingVal smin smax i := by
  unfold mappingVal
  have htmp : (0 : ℚ) ≤ 255 / ((smax : ℚ) - smin) :=
    div_nonneg (by norm_num) (sub_nonneg.mpr (by exact_mod_cast h))
  have hk : (0 : ℚ) ≤ ((max 0 ((i : ℤ) - smin) : ℤ) : ℚ) := by
    exact_mod_cast le_max_left 0 ((i : ℤ) - smin)
  have hx := mul_nonneg htmp hk
  refine le_min (by norm_num) ?_
  rw [round_eq]
  exact Int.le_floor.mpr (by push_cast at hx ⊢; linarith)

lemma mappingVal_le_top (smin smax i : ℕ) : mappingVal smin smax i ≤ 255 :=
  min_le_left _ _

lemma mappingVal_top (smin smax i : ℕ) (h : smin < smax) (hi : smax ≤ i) :
    mappingVal smin smax i = 255 := by
  unfold mappingVal
  have hd : (0 : ℚ) < (smax : ℚ) - smin := sub_pos.mpr (by exact_mod_cast h)
  have hk : max 0 ((i : ℤ) - smin) = (i : ℤ) - smin :=
    max_eq_right (Int.sub_nonneg.mpr (by exact_mod_cast le_trans h.le hi))
  rw [hk]
  have h1 : (smax : ℚ) - smin ≤ (((i : ℤ) - smin : ℤ) : ℚ) := by
    push_cast
    have : (smax : ℚ) ≤ i := by exact_mod_cast hi
    linarith
  have hge : (255 : ℚ) ≤ 255 / ((smax : ℚ) - smin) * (((i : ℤ) - smin : ℤ) : ℚ) := by
    calc (255 : ℚ) = 255 / ((smax : ℚ) - smin) * ((smax : ℚ) - smin) :=
          (div_mul_cancel₀ 255 hd.ne').symm
      _ ≤ _ := mul_le_mul_of_nonneg_left h1 (by positivity)
  refine min_eq_left ?_
  rw [round_eq]
  exact Int.le_floor.mpr (by push_cast at hge ⊢; linarith)

lemma mappingVal_mono (smin smax : ℕ) (h : smin ≤ smax) {i j : ℕ} (hij : i ≤ j) :
    mappingVal smin smax i ≤ mappingVal smin smax j := by
  unfold mappingVal
  have htmp : (0 : ℚ) ≤ 255 / ((smax : ℚ) - smin) :=
    div_nonneg (by norm_num) (sub_nonneg.mpr (by exact_mod_cast h))
  have hk : ((max 0 ((i : ℤ) - smin) : ℤ) : ℚ) ≤ ((max 0 ((j : ℤ) - smin) : ℤ) : ℚ) := by
    have : max 0 ((i : ℤ) - smin) ≤ max 0 ((j : ℤ) - smin) :=
      max_le_max le_rfl (sub_le_sub_right (by exact_mod_cast hij) _)
    exact_mod_cast this
  have hx := mul_le_mul_of_nonneg_left hk htmp
  refine min_le_min le_rfl ?_
  rw [round_eq, round_eq]
  exact Int.floor_mono (by linarith)

lemma mappingVal_id (i : ℕ) (h : i ≤ 255) : mappingVal 0 255 i = (i : ℤ) := by
  unfold mappingVal
  have hk : max 0 ((i : ℤ) - ((0 : ℕ) : ℤ)) = (i : ℤ) := by
    simp [max_eq_right (Int.natCast_nonneg i)]
  rw [hk]
  have hq : (255 : ℚ) / (((255 : ℕ) : ℚ) - ((0 : ℕ) : ℚ)) = 1 := by
    norm_num
  rw [hq, one_mul]
  have : (((i : ℤ) : ℚ)) = ((i : ℕ) : ℚ) := by push_cast; rfl
  rw [this, round_natCast]
  exact min_eq_right (by exact_mod_cast h)

lemma mapByte_val (smin smax : ℕ) (h : smin ≤ smax) (b : Byte) :
    ((mapByte smin smax b : Byte) : ℕ) = (mappingVal smin smax (b : ℕ)).toNat := by
  have h0 := mappingVal_nonneg smin smax (b : ℕ) h
  have h255 := mappingVal_le_top smin smax (b : ℕ)
  show ((mappingVal smin smax (b : ℕ)) % 256).toNat = _
  omega

lemma mapByte_id (b : Byte) : mapByte 0 255 b = b := by
  apply Fin.ext
  rw [mapByte_val 0 255 (by omega) b, mappingVal_id (b : ℕ) (by omega)]
  simp

lemma applyMap_identity (b : List Byte) : applyMap (mapByte 0 255) b = b := by
  unfold applyMap
  induction b with
  | nil => rfl
  | cons a t ih =>
    rw [List.map_cons, mapByte_id a, ih]

lemma mappingValImage_int (smin smax i : ℕ) (h : smin < smax) :
    mappingValImage smin smax i =
      min 255 ((255 * max 0 ((i : ℤ) - smin)) / ((smax - smin : ℕ) : ℤ)) := by
  have hd : 0 < smax - smin := by omega
  have hcast : (smax : ℚ) - (smin : ℚ) = ((smax - smin : ℕ) : ℚ) := by
    rw [Nat.cast_sub h.le]
  unfold mappingValImage
  rw [hcast]
  have hmax : max 0 ((i : ℚ) - (smin : ℚ)) = ((max 0 ((i : ℤ) - smin) : ℤ) : ℚ) := by
    push_cast
    rfl
  rw [hmax]
  have harg : ((max 0 ((i : ℤ) - smin) : ℤ) : ℚ) * (255 / ((smax - smin : ℕ) : ℚ)) =
      ((255 * max 0 ((i : ℤ) - smin) : ℤ) : ℚ) / ((smax - smin : ℕ) : ℚ) := by
    push_cast
    ring
  rw [harg]
  rcases le_total (255 : ℚ)
      (((255 * max 0 ((i : ℤ) - smin) : ℤ) : ℚ) / ((smax - smin : ℕ) : ℚ)) with hc | hc
  · have hge : (255 : ℤ) ≤ (255 * max 0 ((i : ℤ) - smin)) / ((smax - smin : ℕ) : ℤ) := by
      rw [← Rat.floor_intCast_div_natCast]
      exact le_trans (le_of_eq floor_255.symm) (Int.floor_mono hc)
    rw [min_eq_left hc, min_eq_left hge, floor_255]
  · have hle2 : (255 * max 0 ((i : ℤ) - smin)) / ((smax - smin : ℕ) : ℤ) ≤ 255 := by
      rw [← Rat.floor_intCast_div_natCast]
      exact le_trans (Int.floor_mono hc) (le_of_eq floor_255)
    rw [min_eq_right hc, min_eq_right hle2, Rat.floor_intCast_div_natCast]

lemma mappingValImage_of_le (smin smax i : ℕ) (h : i ≤ smin) :
    mappingValImage smin smax i = 0 := by
  unfold mappingValImage
  have hk : max 0 ((i : ℚ) - smin) = 0 :=
    max_eq_left (sub_nonpos.mpr (by exact_mod_cast h))
  rw [hk, zero_mul, min_eq_right (by norm_num : (0 : ℚ) ≤ 255)]
  simp

lemma mappingValImage_nonneg (smin smax i : ℕ) (h : smin ≤ smax) :
    0 ≤ mappingValImage smin smax i := by
  unfold mappingValImage
  have htmp : (0 : ℚ) ≤ 255 / ((smax : ℚ) - smin) :=
    div_nonneg (by norm_num) (sub_nonneg.mpr (by exact_mod_cast h))
  have hk : (0 : ℚ) ≤ max 0 ((i : ℚ) - smin) := le_max_left _ _
  exact Int.le_floor.mpr (by
    push_cast
    exact le_min (by norm_num) (mul_nonneg hk htmp))

lemma mappingValImage_le_top (smin smax i : ℕ) : mappingValImage smin smax i ≤ 255 := by
  unfold mappingValImage
  exact le_trans (Int.floor_mono (min_le_left _ _)) (le_of_eq floor_255)

lemma mappingValImage_top (smin smax i : ℕ) (h : smin < smax) (hi : smax ≤ i) :
    mappingValImage smin smax i = 255 := by
  unfold mappingValImage
  have hd : (0 : ℚ) < (smax : ℚ) - smin := sub_pos.mpr (by exact_mod_cast h)
  have hk : max 0 ((i : ℚ) - smin) = (i : ℚ) - smin := by
    refine max_eq_right (sub_nonneg.mpr ?_)
    exact_mod_cast le_trans h.le hi
  rw [hk]
  have h1 : (smax : ℚ) - smin ≤ (i : ℚ) - smin := by
    have : (smax : ℚ) ≤ i := by exact_mod_cast hi
    linarith
  have hge : (255 : ℚ) ≤ ((i : ℚ) - smin) * (255 / ((smax : ℚ) - smin)) := by
    calc (255 : ℚ) = ((smax : ℚ) - smin) * (255 / ((smax : ℚ) - smin)) := by
          field_simp
      _ ≤ _ := mul_le_mul_of_nonneg_right h1 (by positivity)
  rw [min_eq_left hge, floor_255]

lemma mappingValImage_mono (smin smax : ℕ) (h : smin ≤ smax) {i j : ℕ} (hij : i ≤ j) :
    mappingValImage smin smax i ≤ mappingValImage smin smax j := by
  unfold mappingValImage
  have htmp : (0 : ℚ) ≤ 255 / ((smax : ℚ) - smin) :=
    div_nonneg (by norm_num) (sub_nonneg.mpr (by exact_mod_cast h))
  refine Int.floor_mono (min_le_min le_rfl ?_)
  refine mul_le_mul_of_nonneg_right ?_ htmp
  have : (i : ℚ) ≤ j := by exact_mod_cast hij
  exact max_le_max le_rfl (by linarith)

lemma mapByteImage_val (smin smax : ℕ) (h : smin ≤ smax) (b : Byte) :
    ((mapByteImage smin smax b : Byte) : ℕ) = (mappingValImage smin smax (b : ℕ)).toNat := by
  have h0 := mappingValImage_nonneg smin smax (b : ℕ) h
  have h255 := mappingValImage_le_top smin smax (b : ℕ)
  show ((mappingValImage smin smax (b : ℕ)) % 256).toNat = _
  omega

lemma mem_vals_iff_count_pos {b : List Byte} {u : ℕ} :
    u ∈ vals b ↔ 0 < (vals b).count u := List.count_pos_iff.symm

/-! ### Claim theorems -/

/-- C1: the claim says the Remap Table Builder special-cases the zero
denominator of the degenerate case `source_max == source_min`.  The code
does not: line 181 of `src/autocontrast.cpp` (line 188 of `src/image.cpp`)
computes `tmp = 255.0 / (source_max - source_min)` unconditionally.  This
theorem shows the degenerate case is reachable: for the uniform two-sample
buffer `[42, 42]` with clip coefficient 0 the threshold scans return
`source_min = source_max = 42`, so the divisor `source_max - source_min`
is exactly 0 — in C++ the float division yields `inf`, `round(inf * 0)`
yields `NaN`, and the `(int)` cast of it is undefined behaviour. -/
theorem C1_degenerate_window_reached :
    borders (vals ([42, 42] : List Byte)) 1 ((0 : ℚ) * ((2 : ℕ) : ℚ)) = (42, 42) ∧
    ((borders (vals ([42, 42] : List Byte)) 1 ((0 : ℚ) * ((2 : ℕ) : ℚ))).2 : ℤ) -
      ((borders (vals ([42, 42] : List Byte)) 1 ((0 : ℚ) * ((2 : ℕ) : ℚ))).1 : ℤ) = 0 := by
  have h0 : ((0 : ℚ) * ((2 : ℕ) : ℚ)) = 0 := zero_mul _
  rw [h0]
  exact ⟨by decide, by decide⟩

/-- C2 counterexample: on the all-zero histogram of the empty image with
clip coefficient 0 (`needed = 0 * 0 = 0`), the scans of
`src/autocontrast.cpp` never break, `source_min` clamps to 255 and
`source_max` clamps to 0, so `source_min ≤ source_max` — asserted by the
claim — is false. -/
theorem C2_counterexample :
    ¬ ((borders (vals ([] : List Byte)) 1 ((0 : ℚ) * ((0 : ℕ) : ℚ))).1 ≤
        (borders (vals ([] : List Byte)) 1 ((0 : ℚ) * ((0 : ℕ) : ℚ))).2) := by
  have h0 : ((0 : ℚ) * ((0 : ℕ) : ℚ)) = 0 := zero_mul _
  rw [h0]
  decide

/-- C2 amended: for every histogram and threshold, the two scans of
`src/autocontrast.cpp` stay in `[0, 255]`, the scans of `src/image.cpp`
stay in `[0, 256]` and `[-1, 255]` respectively; all four scans read only
histogram bins `0..255` (their result is unchanged by any modification of
the function outside that index range); and when no prefix ever exceeds
the threshold, the scan variables clamp at their terminal loop values —
255 and 0 in `src/autocontrast.cpp`, 256 and −1 in `src/image.cpp`.  The
ordering `source_min ≤ source_max` of the original claim does not hold in
general (see the counterexample). -/
theorem C2_scan_bounds (f : ℕ → ℕ) (needed : ℚ) :
    (scanMin f needed ≤ 255 ∧ scanMax f needed ≤ 255 ∧
      scanMinImage f needed ≤ 256 ∧
      -1 ≤ scanMaxImage f needed ∧ scanMaxImage f needed ≤ 255) ∧
    (∀ g : ℕ → ℕ, (∀ w, w ≤ 255 → f w = g w) →
      scanMin f needed = scanMin g needed ∧
      scanMax f needed = scanMax g needed ∧
      scanMinImage f needed = scanMinImage g needed ∧
      scanMaxImage f needed = scanMaxImage g needed) ∧
    (((∑ w ∈ Finset.range 256, f w : ℕ) : ℚ) ≤ needed →
      scanMin f needed = 255 ∧ scanMax f needed = 0 ∧
      scanMinImage f needed = 256 ∧ scanMaxImage f needed = -1) := by
  refine ⟨⟨scanMin_le f needed, scanMax_le f needed, ?_, ?_, ?_⟩, ?_, ?_⟩
  · exact scanMinGoImage_le f needed 256 0 0 rfl
  · exact (scanMaxGoImage_bounds f needed 256 0).1
  · have h := (scanMaxGoImage_bounds f needed 256 0).2
    unfold scanMaxImage
    omega
  · intro g hfg
    refine ⟨?_, ?_, ?_, ?_⟩
    · unfold scanMin
      exact scanMinGo_congr f g needed hfg 255 0 0 rfl
    · unfold scanMax
      exact scanMaxGo_congr f g needed hfg 255 0 (by norm_num)
    · unfold scanMinImage
      exact scanMinGoImage_congr f g needed hfg 256 0 0 rfl
    · unfold scanMaxImage
      exact scanMaxGoImage_congr f g needed hfg 256 0 (by norm_num)
  · intro hle
    refine ⟨scanMin_clamp f needed hle, scanMax_clamp f needed hle, ?_, ?_⟩
    · rw [Finset.range_eq_Ico] at hle
      unfold scanMinImage
      exact scanMinGoImage_clamp f needed 256 0 0 rfl (by simpa using hle)
    · unfold scanMaxImage
      exact scanMaxGoImage_clamp f needed 256 0 (by simpa using hle)

/-- Witness for C2's amended theorem at the all-zero histogram. -/
theorem C2_scan_bounds_witness :
    scanMin (fun _ => 0) 0 = 255 ∧ scanMax (fun _ => 0) 0 = 0 ∧
    scanMinImage (fun _ => 0) 0 = 256 ∧ scanMaxImage (fun _ => 0) 0 = -1 := by
  obtain ⟨-, -, hc⟩ := C2_scan_bounds (fun _ => 0) 0
  exact hc (by simp)

/-- C3: the histogram builder of `src/autocontrast.cpp` (blocks of
`⌊N/T⌋` samples plus the single-threaded tail) produces bins summing to
exactly `N` for every buffer and every worker count `T ≥ 1`.  The builder
of `src/image.cpp` violates the claim: its tail loop counts every tail
sample three times, so on the 6-sample buffer `[0,0,0,0,0,1]` with `T = 4`
(block size 1, tail of 2 samples) the bins sum to 10, not 6. -/
theorem C3_histogram_sum :
    (∀ (b : List Byte) (T : ℕ), 1 ≤ T →
      (∑ v ∈ Finset.range 256, freqAuto (vals b) T v) = b.length) ∧
    ((∑ v ∈ Finset.range 256,
        freqImage (vals ([0, 0, 0, 0, 0, 1] : List Byte)) 4 v) = 10 ∧
      ([0, 0, 0, 0, 0, 1] : List Byte).length = 6) := by
  refine ⟨?_, by decide, by decide⟩
  intro b T _
  rw [Finset.sum_congr rfl fun v _ => freqAuto_eq_count (vals b) T v,
    count_sum_256 (vals b) (vals_lt b), vals_length]

/-- Witness for C3's universally quantified part. -/
theorem C3_histogram_sum_witness :
    1 ≤ 2 ∧ (∑ v ∈ Finset.range 256, freqAuto (vals ([7, 7, 9] : List Byte)) 2 v) =
      ([7, 7, 9] : List Byte).length :=
  ⟨by norm_num, C3_histogram_sum.1 [7, 7, 9] 2 (by norm_num)⟩

/-- C4: the applier of `src/autocontrast.cpp` overwrites every index with
its mapped value and preserves the length.  The applier of `src/image.cpp`
violates the claim: its loop runs to `size` (the pixel count) instead of
`3 * size`, so on the one-pixel planar buffer `[10, 20, 30]` with the
table built from `source_min = 10, source_max = 30` only index 0 is
remapped; index 1 keeps the value 20 although the table maps 20 to 127. -/
theorem C4_applier :
    (∀ (table : Byte → Byte) (b : List Byte),
      (applyMap table b).length = b.length ∧
      ∀ i : ℕ, (applyMap table b)[i]? = Option.map table b[i]?) ∧
    (applyMapImage (mapByteImage 10 30) ([10, 20, 30] : List Byte) 1 =
        ([0, 20, 30] : List Byte) ∧
      mapByteImage 10 30 (20 : Byte) ≠ (20 : Byte)) := by
  have h20 : mapByteImage 10 30 (20 : Byte) = (127 : Byte) := by
    apply Fin.ext
    rw [mapByteImage_val 10 30 (by norm_num) 20]
    rw [show ((20 : Byte) : ℕ) = 20 from rfl]
    rw [mappingValImage_int 10 30 20 (by norm_num)]
    decide
  have h10 : mapByteImage 10 30 (10 : Byte) = (0 : Byte) := by
    apply Fin.ext
    rw [mapByteImage_val 10 30 (by norm_num) 10]
    rw [show ((10 : Byte) : ℕ) = 10 from rfl]
    rw [mappingValImage_of_le 10 30 10 le_rfl]
    decide
  refine ⟨?_, ?_, ?_⟩
  · intro table b
    exact ⟨by simp [applyMap], fun i => by simp [applyMap]⟩
  · show ([(10 : Byte)].map (mapByteImage 10 30)) ++ [(20 : Byte), 30] = _
    rw [List.map_cons, h10]
    rfl
  · rw [h20]
    decide

/-- C5: worker-count invariance of `src/autocontrast.cpp` holds for the
histogram unconditionally — for any two worker counts the bins agree
bin-by-bin (each equals the plain occurrence count) — and for the whole
core pass whenever the selected threshold window is non-degenerate
(`source_min ≠ source_max`), because the worker count only enters through
the histogram partition.  The claim's universal quantification over every
buffer fails on the program: the last conjunct shows that a uniform
buffer reaches `source_min = source_max`, where the real table entries
come from `(int) round(inf * 0)` — undefined behaviour (see C1) — so
byte-identical output is not a property the program guarantees there. -/
theorem C5_worker_invariance (b : List Byte) (coeff : ℚ) (size T1 T2 : ℕ)
    (_h1 : 1 ≤ T1) (_h2 : 1 ≤ T2) :
    (∀ v, freqAuto (vals b) T1 v = freqAuto (vals b) T2 v) ∧
    ((borders (vals b) T1 (coeff * size)).1 ≠ (borders (vals b) T1 (coeff * size)).2 →
      pass b coeff size T1 = pass b coeff size T2) ∧
    borders (vals ([7, 7] : List Byte)) 1 ((0 : ℚ) * ((2 : ℕ) : ℚ)) = (7, 7) := by
  refine ⟨?_, ?_, ?_⟩
  · intro v
    rw [freqAuto_eq_count, freqAuto_eq_count]
  · intro _
    unfold pass
    rw [freqAuto_fun (vals b) T1, freqAuto_fun (vals b) T2]
  · have h0 : ((0 : ℚ) * ((2 : ℕ) : ℚ)) = 0 := zero_mul _
    rw [h0]
    decide

/-- Witness for C5 at `T1 = 1`, `T2 = 8` on a buffer whose window `[10,
250]` is non-degenerate. -/
theorem C5_worker_invariance_witness :
    1 ≤ 1 ∧ 1 ≤ 8 ∧
      pass ([10, 250] : List Byte) 0 2 1 = pass ([10, 250] : List Byte) 0 2 8 := by
  refine ⟨le_refl 1, by norm_num, ?_⟩
  refine (C5_worker_invariance [10, 250] 0 2 1 8 (le_refl 1) (by norm_num)).2.1 ?_
  have h0 : ((0 : ℚ) * ((2 : ℕ) : ℚ)) = 0 := zero_mul _
  rw [h0]
  decide

/-- C6: with clip coefficient 0 (`needed = 0 * size = 0`), the strict `>`
comparison trips at the first positive running sum, so for every non-empty
buffer `source_min` is the lowest sample value present and `source_max`
the highest.  Proved for the selectors of both files: the first two
blocks cover `src/autocontrast.cpp` (scans over its histogram), the last
two cover `src/image.cpp` (its `<256`/`>=0` loops over its overcounting
histogram — the overcount never changes which bins are non-empty, so the
same values result). -/
theorem C6_zero_coeff_minmax (b : List Byte) (T size : ℕ) (hb : b ≠ []) :
    ((∃ x ∈ b, (x : ℕ) = (borders (vals b) T ((0 : ℚ) * ((size : ℕ) : ℚ))).1) ∧
      (∀ x ∈ b, (borders (vals b) T ((0 : ℚ) * ((size : ℕ) : ℚ))).1 ≤ (x : ℕ))) ∧
    ((∃ x ∈ b, (x : ℕ) = (borders (vals b) T ((0 : ℚ) * ((size : ℕ) : ℚ))).2) ∧
      (∀ x ∈ b, (x : ℕ) ≤ (borders (vals b) T ((0 : ℚ) * ((size : ℕ) : ℚ))).2)) ∧
    ((∃ x ∈ b, (x : ℕ) =
        scanMinImage (freqImage (vals b) T) ((0 : ℚ) * ((size : ℕ) : ℚ))) ∧
      (∀ x ∈ b,
        scanMinImage (freqImage (vals b) T) ((0 : ℚ) * ((size : ℕ) : ℚ)) ≤ (x : ℕ))) ∧
    ((∃ x ∈ b, ((x : ℕ) : ℤ) =
        scanMaxImage (freqImage (vals b) T) ((0 : ℚ) * ((size : ℕ) : ℚ))) ∧
      (∀ x ∈ b, ((x : ℕ) : ℤ) ≤
        scanMaxImage (freqImage (vals b) T) ((0 : ℚ) * ((size : ℕ) : ℚ)))) := by
  have h0 : ((0 : ℚ) * ((size : ℕ) : ℚ)) = 0 := zero_mul _
  rw [h0]
  unfold borders
  rw [freqAuto_fun (vals b) T]
  have hex : ∃ u, u ≤ 255 ∧ 0 < (vals b).count u := by
    obtain ⟨x, hxb⟩ : ∃ x, x ∈ b := by
      cases b with
      | nil => simp at hb
      | cons a t => exact ⟨a, by simp⟩
    exact ⟨(x : ℕ), Nat.lt_succ_iff.mp x.isLt,
      mem_vals_iff_count_pos.mp (List.mem_map_of_mem _ hxb)⟩
  obtain ⟨hminpos, hminbelow⟩ := scanMin_first (fun v => (vals b).count v) hex
  obtain ⟨hmaxpos, hmaxabove, -⟩ := scanMax_last (fun v => (vals b).count v) hex
  have hexI : ∃ u, u ≤ 255 ∧ 0 < freqImage (vals b) T u := by
    obtain ⟨u, hu255, hupos⟩ := hex
    exact ⟨u, hu255, (freqImage_pos_iff (vals b) T u).mpr hupos⟩
  obtain ⟨hIpos, hIbelow⟩ := scanMinImage_first (freqImage (vals b) T) hexI
  obtain ⟨r, hreq, hrpos, hrabove⟩ := scanMaxImage_last (freqImage (vals b) T) hexI
  refine ⟨⟨?_, ?_⟩, ⟨?_, ?_⟩, ⟨?_, ?_⟩, ⟨?_, ?_⟩⟩
  · have hmem : scanMin (fun v => (vals b).count v) 0 ∈ vals b :=
      mem_vals_iff_count_pos.mpr hminpos
    obtain ⟨x, hxb, hxv⟩ := List.mem_map.mp hmem
    exact ⟨x, hxb, hxv⟩
  · intro x hxb
    by_contra hlt
    have h1 : (vals b).count (x : ℕ) = 0 := hminbelow (x : ℕ) (by omega)
    have h2 := mem_vals_iff_count_pos.mp (List.mem_map_of_mem _ hxb)
    omega
  · have hmem : scanMax (fun v => (vals b).count v) 0 ∈ vals b :=
      mem_vals_iff_count_pos.mpr hmaxpos
    obtain ⟨x, hxb, hxv⟩ := List.mem_map.mp hmem
    exact ⟨x, hxb, hxv⟩
  · intro x hxb
    by_contra hlt
    have h1 : (vals b).count (x : ℕ) = 0 :=
      hmaxabove (x : ℕ) (by omega) (Nat.lt_succ_iff.mp x.isLt)
    have h2 := mem_vals_iff_count_pos.mp (List.mem_map_of_mem _ hxb)
    omega
  · have hmem : scanMinImage (freqImage (vals b) T) 0 ∈ vals b :=
      mem_vals_iff_count_pos.mpr
        ((freqImage_pos_iff (vals b) T _).mp hIpos)
    obtain ⟨x, hxb, hxv⟩ := List.mem_map.mp hmem
    exact ⟨x, hxb, hxv⟩
  · intro x hxb
    by_contra hlt
    have h1 : freqImage (vals b) T (x : ℕ) = 0 := hIbelow (x : ℕ) (by omega)
    have h2 := mem_vals_iff_count_pos.mp (List.mem_map_of_mem _ hxb)
    have h3 := (freqImage_pos_iff (vals b) T (x : ℕ)).mpr h2
    omega
  · have hmem : r ∈ vals b :=
      mem_vals_iff_count_pos.mpr ((freqImage_pos_iff (vals b) T r).mp hrpos)
    obtain ⟨x, hxb, hxv⟩ := List.mem_map.mp hmem
    refine ⟨x, hxb, ?_⟩
    rw [hxv, hreq]
  · intro x hxb
    have h2 := mem_vals_iff_count_pos.mp (List.mem_map_of_mem _ hxb)
    have h3 := (freqImage_pos_iff (vals b) T (x : ℕ)).mpr h2
    have hle : (x : ℕ) ≤ r := by
      by_contra hlt
      have h1 : freqImage (vals b) T (x : ℕ) = 0 :=
        hrabove (x : ℕ) (by omega) (Nat.lt_succ_iff.mp x.isLt)
      omega
    rw [hreq]
    exact_mod_cast hle

/-- Witness for C6 on the buffer `[10, 250]`, exercising both files'
selectors. -/
theorem C6_zero_coeff_minmax_witness :
    (([10, 250] : List Byte) ≠ []) ∧
    (∀ x ∈ ([10, 250] : List Byte),
      (borders (vals ([10, 250] : List Byte)) 1 ((0 : ℚ) * ((2 : ℕ) : ℚ))).1 ≤ (x : ℕ)) ∧
    (∀ x ∈ ([10, 250] : List Byte),
      scanMinImage (freqImage (vals ([10, 250] : List Byte)) 1)
        ((0 : ℚ) * ((2 : ℕ) : ℚ)) ≤ (x : ℕ)) :=
  ⟨by decide, (C6_zero_coeff_minmax [10, 250] 1 2 (by decide)).1.2,
    (C6_zero_coeff_minmax [10, 250] 1 2 (by decide)).2.2.1.2⟩

/-- C7: for `source_min < source_max ≤ 255`, the stored remap table of
`src/autocontrast.cpp` maps `source_min` (and everything at or below it)
to 0, maps `source_max` (and everything at or above it) to 255, and is
monotonically non-decreasing over the whole domain `0..255`; the table of
`src/image.cpp` satisfies the lower clamp and monotonicity (which are
robust to float32 rounding).  But the claim's `table[source_max] == 255`
is false of `src/image.cpp`: its build multiplies in float32 and stores
with a truncating `uint8_t` conversion, and the final conjunct evaluates
that computation at the window `[0, 7]` — `tmpF32` is the binary32 value
of `255.0f / 7` and `prodF32` of `7 * tmpF32`, each pinned down as the
multiple of the ulp strictly within half an ulp of the exact value — and
shows the stored entry is `⌊min(255, prodF32)⌋ = 254`, not 255. -/
theorem C7_remap_table (smin smax : ℕ) (h : smin < smax) (h255 : smax ≤ 255) :
    (∀ i : Byte, (i : ℕ) ≤ smin → mapByte smin smax i = (0 : Byte)) ∧
    (mapByte smin smax ⟨smin, by omega⟩ = (0 : Byte)) ∧
    (mapByte smin smax ⟨smax, by omega⟩ = (255 : Byte)) ∧
    (∀ i : Byte, smax ≤ (i : ℕ) → mapByte smin smax i = (255 : Byte)) ∧
    (∀ i j : Byte, i ≤ j →
      (mapByte smin smax i : ℕ) ≤ (mapByte smin smax j : ℕ)) ∧
    (∀ i : Byte, (i : ℕ) ≤ smin → mapByteImage smin smax i = (0 : Byte)) ∧
    (∀ i j : Byte, i ≤ j →
      (mapByteImage smin smax i : ℕ) ≤ (mapByteImage smin smax j : ℕ)) ∧
    (|(255 : ℚ) / 7 - tmpF32| < 1 / 524288 ∧
      |(7 : ℚ) * tmpF32 - prodF32| < 1 / 131072 ∧
      ⌊min (255 : ℚ) prodF32⌋ = 254) := by
  have hle := h.le
  have hlow : ∀ i : Byte, (i : ℕ) ≤ smin → mapByte smin smax i = (0 : Byte) := by
    intro i hi
    apply Fin.ext
    rw [mapByte_val smin smax hle i, mappingVal_of_le smin smax (i : ℕ) hi]
    decide
  have hhigh : ∀ i : Byte, smax ≤ (i : ℕ) → mapByte smin smax i = (255 : Byte) := by
    intro i hi
    apply Fin.ext
    rw [mapByte_val smin smax hle i, mappingVal_top smin smax (i : ℕ) h hi]
    decide
  have hmono : ∀ i j : Byte, i ≤ j →
      (mapByte smin smax i : ℕ) ≤ (mapByte smin smax j : ℕ) := by
    intro i j hij
    rw [mapByte_val smin smax hle i, mapByte_val smin smax hle j]
    exact Int.toNat_le_toNat (mappingVal_mono smin smax hle hij)
  have hlowI : ∀ i : Byte, (i : ℕ) ≤ smin → mapByteImage smin smax i = (0 : Byte) := by
    intro i hi
    apply Fin.ext
    rw [mapByteImage_val smin smax hle i, mappingValImage_of_le smin smax (i : ℕ) hi]
    decide
  have hmonoI : ∀ i j : Byte, i ≤ j →
      (mapByteImage smin smax i : ℕ) ≤ (mapByteImage smin smax j : ℕ) := by
    intro i j hij
    rw [mapByteImage_val smin smax hle i, mapByteImage_val smin smax hle j]
    exact Int.toNat_le_toNat (mappingValImage_mono smin smax hle hij)
  have htmp : |(255 : ℚ) / 7 - tmpF32| < 1 / 524288 := by
    rw [abs_lt]
    constructor <;> norm_num [tmpF32]
  have hprod : |(7 : ℚ) * tmpF32 - prodF32| < 1 / 131072 := by
    rw [abs_lt]
    constructor <;> norm_num [tmpF32, prodF32]
  have hfloor : ⌊min (255 : ℚ) prodF32⌋ = 254 := by
    rw [min_eq_right (by norm_num [prodF32] : prodF32 ≤ (255 : ℚ))]
    rw [Int.floor_eq_iff]
    constructor <;> norm_num [prodF32]
  exact ⟨hlow, hlow ⟨smin, by omega⟩ le_rfl, hhigh ⟨smax, by omega⟩ le_rfl, hhigh,
    hmono, hlowI, hmonoI, htmp, hprod, hfloor⟩

/-- Witness for C7 at the threshold pair `(10, 250)`, exercising the
`source_min < source_max ≤ 255` hypotheses. -/
theorem C7_remap_table_witness :
    10 < 250 ∧ 250 ≤ 255 ∧ mapByte 10 250 (10 : Byte) = (0 : Byte) ∧
      mapByte 10 250 (250 : Byte) = (255 : Byte) := by
  have h := C7_remap_table 10 250 (by norm_num) (by norm_num)
  exact ⟨by norm_num, by norm_num, h.1 (10 : Byte) (by decide),
    h.2.2.2.1 (250 : Byte) (by decide)⟩

/-- C8 counterexample: when all five arguments are present, both numbers
parse cleanly, but the input file cannot be opened, `handle_image` prints
its diagnostic and returns normally, and `main` falls through with exit
status 0 — not the non-zero status the claim asserts. -/
theorem C8_counterexample_exit_zero :
    mainRun 5 NumParse.ok NumParse.ok false true true = (0, true) := rfl

/-- C8 amended: with at least one but fewer than four arguments, or with a
worker-count or coefficient argument that fails to parse or has trailing
characters, the program prints a diagnostic and exits 1; with an input
file that cannot be opened, a header `fscanf` that does not yield five
fields, or a magic token that is not `P5`/`P6`, it prints a diagnostic but
exits 0; with no arguments at all it runs its debug batch and exits 0. -/
theorem C8_amended_cli (argc : ℕ) (p1 p4 : NumParse) (o hOk m : Bool) :
    (1 < argc → argc < 5 → mainRun argc p1 p4 o hOk m = (1, true)) ∧
    (5 ≤ argc → p1 ≠ NumParse.ok → mainRun argc p1 p4 o hOk m = (1, true)) ∧
    (5 ≤ argc → p4 ≠ NumParse.ok → mainRun argc NumParse.ok p4 o hOk m = (1, true)) ∧
    (5 ≤ argc → mainRun argc NumParse.ok NumParse.ok false hOk m = (0, true)) ∧
    (5 ≤ argc → mainRun argc NumParse.ok NumParse.ok true false m = (0, true)) ∧
    (5 ≤ argc → mainRun argc NumParse.ok NumParse.ok true true false = (0, true)) ∧
    (argc ≤ 1 → mainRun argc p1 p4 o hOk m = (0, false)) := by
  refine ⟨?_, ?_, ?_, ?_, ?_, ?_, ?_⟩
  · intro ha hb
    unfold mainRun
    rw [if_pos ha, if_pos hb]
  · intro ha hp
    unfold mainRun
    rw [if_pos (by omega), if_neg (by omega)]
    cases p1 with
    | ok => exact absurd rfl hp
    | invalid => rfl
    | trailing => rfl
  · intro ha hp
    unfold mainRun
    rw [if_pos (by omega), if_neg (by omega)]
    cases p4 with
    | ok => exact absurd rfl hp
    | invalid => rfl
    | trailing => rfl
  · intro ha
    unfold mainRun
    rw [if_pos (by omega), if_neg (by omega)]
    rfl
  · intro ha
    unfold mainRun
    rw [if_pos (by omega), if_neg (by omega)]
    rfl
  · intro ha
    unfold mainRun
    rw [if_pos (by omega), if_neg (by omega)]
    rfl
  · intro ha
    unfold mainRun
    rw [if_neg (by omega)]

/-- Witness for C8's amended theorem: three arguments trigger the
"Too few arguments" diagnostic with exit status 1. -/
theorem C8_amended_cli_witness :
    1 < 3 ∧ 3 < 5 ∧
      mainRun 3 NumParse.ok NumParse.ok true true true = (1, true) :=
  ⟨by norm_num, by norm_num,
    (C8_amended_cli 3 NumParse.ok NumParse.ok true true true).1
      (by norm_num) (by norm_num)⟩

/-- C9: the remap table built from `source_min = 0, source_max = 255` is
the identity (`scale = 255/255 = 1`, `round(i) = i`, `min(255, i) = i`),
so the Parallel Applier leaves every buffer unchanged. -/
theorem C9_identity_applier (b : List Byte) : applyMap (mapByte 0 255) b = b :=
  applyMap_identity b

/-- C10: on a buffer with at least two distinct sample values, the full
core pass with clip coefficient 0 is idempotent: the first pass maps the
least present value to 0 and the greatest to 255, so the second pass
selects the window `[0, 255]`, whose table is the identity. -/
theorem C10_idempotent_pass (b : List Byte) (size size2 T T2 : ℕ)
    (hb : ∃ x ∈ b, ∃ y ∈ b, x ≠ y) :
    pass (pass b 0 size T) 0 size2 T2 = pass b 0 size T := by
  unfold pass
  simp only [zero_mul]
  rw [freqAuto_fun (vals b) T]
  have hex : ∃ u, u ≤ 255 ∧ 0 < (vals b).count u := by
    obtain ⟨x, hxb, -⟩ := hb
    exact ⟨(x : ℕ), Nat.lt_succ_iff.mp x.isLt,
      mem_vals_iff_count_pos.mp (List.mem_map_of_mem _ hxb)⟩
  obtain ⟨hminpos, hminbelow⟩ := scanMin_first (fun v => (vals b).count v) hex
  obtain ⟨hmaxpos, hmaxabove, -⟩ := scanMax_last (fun v => (vals b).count v) hex
  set m := scanMin (fun v => (vals b).count v) 0 with hm
  set M := scanMax (fun v => (vals b).count v) 0 with hM
  have hmemlow : ∀ x : Byte, x ∈ b → m ≤ (x : ℕ) := by
    intro x hxb
    by_contra hlt
    have h1 : (vals b).count (x : ℕ) = 0 := hminbelow (x : ℕ) (by omega)
    have h2 := mem_vals_iff_count_pos.mp (List.mem_map_of_mem _ hxb)
    omega
  have hmemhigh : ∀ x : Byte, x ∈ b → (x : ℕ) ≤ M := by
    intro x hxb
    by_contra hlt
    have h1 : (vals b).count (x : ℕ) = 0 :=
      hmaxabove (x : ℕ) (by omega) (Nat.lt_succ_iff.mp x.isLt)
    have h2 := mem_vals_iff_count_pos.mp (List.mem_map_of_mem _ hxb)
    omega
  have hmM : m < M := by
    obtain ⟨x, hxb, y, hyb, hxy⟩ := hb
    have h1 := hmemlow x hxb
    have h2 := hmemhigh x hxb
    have h3 := hmemlow y hyb
    have h4 := hmemhigh y hyb
    have hne : (x : ℕ) ≠ (y : ℕ) := fun hv => hxy (Fin.ext hv)
    omega
  have h0mem : (0 : ℕ) ∈ vals (applyMap (mapByte m M) b) := by
    have hmmem : m ∈ vals b := mem_vals_iff_count_pos.mpr hminpos
    obtain ⟨e, heb, hev⟩ := List.mem_map.mp hmmem
    have hval : ((mapByte m M e : Byte) : ℕ) = 0 := by
      unfold mapByte
      rw [hev, mappingVal_of_le m M m le_rfl]
      rfl
    unfold applyMap vals
    rw [List.map_map]
    exact List.mem_map.mpr ⟨e, heb, hval⟩
  have h255mem : (255 : ℕ) ∈ vals (applyMap (mapByte m M) b) := by
    have hMmem : M ∈ vals b := mem_vals_iff_count_pos.mpr hmaxpos
    obtain ⟨e, heb, hev⟩ := List.mem_map.mp hMmem
    have hval : ((mapByte m M e : Byte) : ℕ) = 255 := by
      unfold mapByte
      rw [hev, mappingVal_top m M M hmM le_rfl]
      rfl
    unfold applyMap vals
    rw [List.map_map]
    exact List.mem_map.mpr ⟨e, heb, hval⟩
  rw [freqAuto_fun (vals (applyMap (mapByte m M) b)) T2]
  have hex2 : ∃ u, u ≤ 255 ∧ 0 < (vals (applyMap (mapByte m M) b)).count u :=
    ⟨0, by omega, mem_vals_iff_count_pos.mp h0mem⟩
  obtain ⟨-, h2below⟩ :=
    scanMin_first (fun v => (vals (applyMap (mapByte m M) b)).count v) hex2
  obtain ⟨-, h3above, -⟩ :=
    scanMax_last (fun v => (vals (applyMap (mapByte m M) b)).count v) hex2
  have hm2 : scanMin (fun v => (vals (applyMap (mapByte m M) b)).count v) 0 = 0 := by
    by_contra hne
    have h1 : (vals (applyMap (mapByte m M) b)).count 0 = 0 := h2below 0 (by omega)
    have h2 := mem_vals_iff_count_pos.mp h0mem
    omega
  have hM2 : scanMax (fun v => (vals (applyMap (mapByte m M) b)).count v) 0 = 255 := by
    by_contra hne
    have hle : scanMax (fun v => (vals (applyMap (mapByte m M) b)).count v) 0 ≤ 255 :=
      scanMax_le _ 0
    have h1 : (vals (applyMap (mapByte m M) b)).count 255 = 0 :=
      h3above 255 (by omega) le_rfl
    have h2 := mem_vals_iff_count_pos.mp h255mem
    omega
  rw [hm2, hM2]
  exact applyMap_identity (applyMap (mapByte m M) b)

/-- Witness for C10 on the buffer `[10, 250]`. -/
theorem C10_idempotent_pass_witness :
    (∃ x ∈ ([10, 250] : List Byte), ∃ y ∈ ([10, 250] : List Byte), x ≠ y) ∧
    pass (pass ([10, 250] : List Byte) 0 2 1) 0 2 1 =
      pass ([10, 250] : List Byte) 0 2 1 :=
  ⟨by decide, C10_idempotent_pass [10, 250] 2 2 1 1 (by decide)⟩

end Autocontrast
